import Mathlib

/-!
# FairShare core: shallow embedding and verification

This file embeds the core debt-computation engine of the fairshare backend
(`src/api/src/core/money.py`, `src/api/src/expenses/service.py`,
`src/api/src/groups/service.py`) into Lean and proves the testable
properties of its specification.

Monetary amounts are represented as integer cents (`ℤ`).  Every Decimal
value flowing through the allocator, aggregator, minimizer and netter is
quantized to two decimal places, and `quantize_currency` is the identity
on such values, so the integer-cent embedding is exact: `Decimal`
additions, subtractions, `min` and comparisons map to the corresponding
integer operations.  The one function whose rounding behaviour is itself
under scrutiny, `quantize_currency`, is modelled separately on `ℚ`.

User ids are `ℕ`.
-/

namespace FairShare

/-- Embedding of `quantize_currency` (src/api/src/core/money.py).
`Decimal.quantize(Decimal("0.01"), rounding=ROUND_UP)` rounds to two
decimal places; Python's `ROUND_UP` rounds away from zero whenever any
discarded digit is non-zero.  For a finite decimal `v` this is
`⌈v·100⌉/100` when `v ≥ 0` and `⌊v·100⌋/100` when `v < 0`. -/
def quantize_currency (v : ℚ) : ℚ :=
  if 0 ≤ v then (⌈v * 100⌉ : ℚ) / 100 else (⌊v * 100⌋ : ℚ) / 100

/-- Modelled from the spec: round-half-up to two decimal places, where
values strictly between two representable neighbours go to the nearest
one and only exact ties round away from zero.  This is the rounding rule
the specification text ascribes to the money normalizer; it is defined
here only to be compared against `quantize_currency`. -/
def round_half_up_2dp (v : ℚ) : ℚ :=
  if 0 ≤ v then (⌊v * 100 + 1 / 2⌋ : ℚ) / 100
  else -((⌊-(v * 100) + 1 / 2⌋ : ℚ) / 100)

/-- Embedding of the per-member share loop of `_create_expense_splits`
(src/api/src/expenses/service.py lines 66-69): member at position `idx`
receives `base + 1` cents when `idx < remainder` and `base` cents
otherwise. -/
def splitLoop (base remainder : ℤ) : ℕ → List ℕ → List (ℕ × ℤ)
  | _, [] => []
  | idx, m :: ms =>
      (m, base + if (idx : ℤ) < remainder then 1 else 0) :: splitLoop base remainder (idx + 1) ms

/-- Embedding of `_create_expense_splits` (src/api/src/expenses/service.py
lines 46-71) on integer cents.  The SQL query supplies the member ids in
ascending order; `totalCents = int(total * 100)` where `total` is the
already-quantized expense value; `base_share = total_cents // member_count`
and `remainder = total_cents % member_count` are Python floor division and
modulus, i.e. `Int.fdiv` / `Int.fmod`.  If there are no members, no splits
are created. -/
def allocate_splits (totalCents : ℤ) (memberIds : List ℕ) : List (ℕ × ℤ) :=
  if memberIds.isEmpty then []
  else
    splitLoop (totalCents.fdiv (memberIds.length : ℤ)) (totalCents.fmod (memberIds.length : ℤ))
      0 memberIds

/-! ## Balance aggregator

Embedding of the first half of `_calculate_group_settlement_plan`
(src/api/src/groups/service.py lines 426-451).  A split row is
`(user_id, created_by, share)`; the SQL query keeps only rows with
`user_id ≠ created_by`, subtracts the share from the split holder and adds
it to the expense creator.  A settlement row is
`(debtor_id, creditor_id, amount)`; the debtor gains the amount and the
creditor loses it.  The SQL query pre-groups split rows by
`(user_id, created_by)` and sums the shares; since each grouped row is
applied as one additive update per user, folding the ungrouped rows one by
one yields the same balances.  Balances live in a `defaultdict` starting at
zero, modelled as a total function `ℕ → ℤ`. -/

/-- Add `x` cents to user `u`'s entry of the balances mapping. -/
def addTo (bal : ℕ → ℤ) (u : ℕ) (x : ℤ) : ℕ → ℤ :=
  Function.update bal u (bal u + x)

/-- Apply one expense-split row `(user_id, created_by, share)`:
`balances[debtor_id] -= amount; balances[creditor_id] += amount`, with
self-splits (`user_id = created_by`) excluded by the SQL filter. -/
def apply_split (bal : ℕ → ℤ) (row : ℕ × ℕ × ℤ) : ℕ → ℤ :=
  if row.1 = row.2.1 then bal
  else addTo (addTo bal row.1 (-row.2.2)) row.2.1 row.2.2

/-- Apply one settlement row `(debtor_id, creditor_id, amount)`:
`balances[debtor_id] += amount; balances[creditor_id] -= amount`. -/
def apply_settlement (bal : ℕ → ℤ) (row : ℕ × ℕ × ℤ) : ℕ → ℤ :=
  addTo (addTo bal row.1 row.2.2) row.2.1 (-row.2.2)

/-- Balance aggregation step of `_calculate_group_settlement_plan`. -/
def aggregate_balances (splits settlements : List (ℕ × ℕ × ℤ)) : ℕ → ℤ :=
  settlements.foldl apply_settlement (splits.foldl apply_split fun _ => 0)

/-! ## Settlement plan minimizer

Embedding of the second half of `_calculate_group_settlement_plan`
(src/api/src/groups/service.py lines 452-487).  The balances `dict` is an
association list with the dict's (unique) keys; amounts are integer
cents, on which the `quantize_currency` calls of the source are the
identity, so `transfer_amount = quantize(min(debtor_amount,
creditor_amount))` is `min` and the quantized remaining amounts are plain
subtractions. -/

/-- Sort order of the Python key `(-amount, user_id)` on `(user_id, amount)`
pairs: descending amount, ascending user id as tie-break. -/
def planOrder (a b : ℕ × ℤ) : Prop :=
  b.2 < a.2 ∨ (a.2 = b.2 ∧ a.1 ≤ b.1)

instance : DecidableRel planOrder := fun a b => by
  unfold planOrder; infer_instance

instance : IsTotal (ℕ × ℤ) planOrder :=
  ⟨fun a b => by unfold planOrder; omega⟩

instance : IsTrans (ℕ × ℤ) planOrder :=
  ⟨fun a b c hab hbc => by unfold planOrder at *; omega⟩

/-- Embedding of the `while debtor_index < len(debtors) and creditor_index <
len(creditors)` loop: advancing an index past an exhausted entry is dropping
the list head, updating `debtors[debtor_index]` in place is replacing the
head. -/
def greedyLoop : List (ℕ × ℤ) → List (ℕ × ℤ) → List (ℕ × ℕ × ℤ)
  | [], _ => []
  | _ :: _, [] => []
  | (d, da) :: ds, (c, ca) :: cs =>
      let t := min da ca
      let rest :=
        greedyLoop (if da - t = 0 then ds else (d, da - t) :: ds)
          (if ca - t = 0 then cs else (c, ca - t) :: cs)
      if 0 < t then (d, c, t) :: rest else rest
  termination_by ds cs => ds.length + cs.length
  decreasing_by
    rcases min_cases da ca with ⟨hmin, -⟩ | ⟨hmin, -⟩ <;>
      rw [hmin] <;> split <;> split <;> simp_all [List.length_cons] <;> omega

/-- Embedding of `_calculate_group_settlement_plan` lines 452-487: partition
the balances mapping into creditors (`balance > 0`) and debtors
(`balance < 0`, stored as the positive owed amount), sort both by
`(-amount, user_id)`, then run the greedy matching loop. -/
def minimize_settlement (balances : List (ℕ × ℤ)) : List (ℕ × ℕ × ℤ) :=
  let debtors := balances.filterMap fun p => if p.2 < 0 then some (p.1, -p.2) else none
  let creditors := balances.filterMap fun p => if 0 < p.2 then some p else none
  greedyLoop (debtors.insertionSort planOrder) (creditors.insertionSort planOrder)

/-- Total amount user `u` pays as a debtor across a transfer list. -/
def paidBy (u : ℕ) (ts : List (ℕ × ℕ × ℤ)) : ℤ :=
  (ts.map fun t => if t.1 = u then t.2.2 else 0).sum

/-- Total amount user `u` receives as a creditor across a transfer list. -/
def receivedBy (u : ℕ) (ts : List (ℕ × ℕ × ℤ)) : ℤ :=
  (ts.map fun t => if t.2.1 = u then t.2.2 else 0).sum

/-- Value of user `u` in an association-list mapping (sum of the entries
with key `u`; for a mapping with unique keys this is its value, and `0`
when absent). -/
def balanceOf (bl : List (ℕ × ℤ)) (u : ℕ) : ℤ :=
  (bl.map fun p => if p.1 = u then p.2 else 0).sum

/-- Balance of user `u` after applying every transfer of a plan to the
balances mapping: each transfer debits its debtor (who pays, so their
negative balance moves up by the amount) and credits its creditor (whose
positive balance moves down by the amount). -/
def settle (bl : List (ℕ × ℤ)) (ts : List (ℕ × ℕ × ℤ)) (u : ℕ) : ℤ :=
  balanceOf bl u + paidBy u ts - receivedBy u ts

/-! ## Per-user debt netter

Embedding of `_net_user_debts` (src/api/src/groups/service.py lines
605-631) and of the transfer-bucketing loop of `calculate_user_debts`
(lines 410-423).  The raw maps are Python `defaultdict`s, modelled as
association lists built in touch order; `.get(other_id, Decimal("0.00"))`
is `lookupD`.  Amounts are integer cents, on which every
`quantize_currency` call of the source is the identity. -/

/-- Dictionary lookup with default `0`
(`raw.get(other_id, Decimal("0.00"))`). -/
def lookupD : List (ℕ × ℤ) → ℕ → ℤ
  | [], _ => 0
  | p :: rest, k => if p.1 = k then p.2 else lookupD rest k

/-- Result record of `_net_user_debts`: the two totals and the two sorted
`DebtItem` lists `(counterparty user id, amount)`. -/
structure UserDebts where
  owed_by_total : ℤ
  owed_to_total : ℤ
  owed_by_items : List (ℕ × ℤ)
  owed_to_items : List (ℕ × ℤ)
deriving DecidableEq

/-- Embedding of `_net_user_debts`: iterate over the union of the two raw
maps' key sets; a counterparty with equal amounts in both directions is
dropped, otherwise the larger side receives one item carrying the
difference; totals accumulate the kept amounts; both item lists are sorted
by `(-amount, user_id)`. -/
def net_user_debts (owed_by_raw owed_to_raw : List (ℕ × ℤ)) : UserDebts :=
  let keys := (owed_by_raw.map Prod.fst ++ owed_to_raw.map Prod.fst).dedup
  let owed_by_items := keys.filterMap fun k =>
    if lookupD owed_to_raw k < lookupD owed_by_raw k then
      some (k, lookupD owed_by_raw k - lookupD owed_to_raw k) else none
  let owed_to_items := keys.filterMap fun k =>
    if lookupD owed_by_raw k < lookupD owed_to_raw k then
      some (k, lookupD owed_to_raw k - lookupD owed_by_raw k) else none
  { owed_by_total := (owed_by_items.map Prod.snd).sum
    owed_to_total := (owed_to_items.map Prod.snd).sum
    owed_by_items := owed_by_items.insertionSort planOrder
    owed_to_items := owed_to_items.insertionSort planOrder }

/-- Embedding of `defaultdict` accumulation `raw[key] += amount`: update the
entry in place when the key exists, append it otherwise. -/
def addRaw : List (ℕ × ℤ) → ℕ → ℤ → List (ℕ × ℤ)
  | [], k, v => [(k, v)]
  | p :: rest, k, v => if p.1 = k then (p.1, p.2 + v) :: rest else p :: addRaw rest k v

/-- One step of the bucketing loop of `calculate_user_debts`
(src/api/src/groups/service.py lines 417-421) for one transfer
`(debtor_id, creditor_id, amount)`: when the user is the debtor the amount
accumulates into the owed-by map keyed by creditor, when the user is the
creditor it accumulates into the owed-to map keyed by debtor, and other
transfers are skipped. -/
def debtStep (user : ℕ) (acc : List (ℕ × ℤ) × List (ℕ × ℤ)) (t : ℕ × ℕ × ℤ) :
    List (ℕ × ℤ) × List (ℕ × ℤ) :=
  if t.1 = user then (addRaw acc.1 t.2.1 t.2.2, acc.2)
  else if t.2.1 = user then (acc.1, addRaw acc.2 t.1 t.2.2)
  else acc

/-- Embedding of the bucketing part of `calculate_user_debts`
(src/api/src/groups/service.py lines 410-423) applied to a given transfer
list: bucket every transfer touching the user into the two raw maps, then
net them with `_net_user_debts`. -/
def calculate_user_debts (transfers : List (ℕ × ℕ × ℤ)) (user : ℕ) : UserDebts :=
  let raws := transfers.foldl (debtStep user) ([], [])
  net_user_debts raws.1 raws.2

/-- Raw maps that only ever accumulate on one key `k` are either empty with
a zero running total or the singleton `[(k, total)]`. -/
def rawShape (k : ℕ) (m : List (ℕ × ℤ)) (s : ℤ) : Prop :=
  (m = [] ∧ s = 0) ∨ m = [(k, s)]

/-- Sum of the amounts of transfers issued by user `x` in a transfer list. -/
def sumFrom (x : ℕ) (ts : List (ℕ × ℕ × ℤ)) : ℤ :=
  ((ts.filter fun t => t.1 = x).map fun t => t.2.2).sum

/-! ## Expense lifecycle (C6)

`create_expense` allocates splits from the quantized expense value over
the current members (`_create_expense_splits`); `update_expense`
(src/api/src/expenses/service.py lines 74-81) overwrites the fields
provided in the update payload — including `value` — via
`sqlmodel_update` and never touches the existing `ExpenseSplit` rows. -/

/-- Expense state relevant to the split-sum invariant: the quantized total
value in cents and the allocated `(user_id, share)` rows. -/
structure ExpenseState where
  value : ℤ
  splits : List (ℕ × ℤ)
deriving DecidableEq

/-- Embedding of `create_expense`: store the (already-quantized) value and
allocate splits over the group's current member ids. -/
def create_expense (value : ℤ) (memberIds : List ℕ) : ExpenseState :=
  ⟨value, allocate_splits value memberIds⟩

/-- Embedding of `update_expense`: `sqlmodel_update` replaces the value
when one is supplied and leaves the splits untouched. -/
def update_expense (e : ExpenseState) (newValue : Option ℤ) : ExpenseState :=
  ⟨newValue.getD e.value, e.splits⟩

/-! ## Join-by-invite-code (C9)

Embedding of `create_join_request_by_invite_code`
(src/api/src/groups/service.py lines 143-171).  Invite codes are modelled
as their normalized value (a `ℕ` token; `normalize_invite_code` is a pure
string normalization orthogonal to the control flow verified here).  The
relevant persistent state is the group table, the membership rows, the
join-request rows and the expense-split/settlement ledger from which
balances are derived; the service raises `ValueError("User already a
member")` before performing any write when the user is already a member. -/

/-- Status column of `ExpenseGroupJoinRequest`. -/
inductive JoinRequestStatus
  | pending
  | accepted
  | declined
deriving DecidableEq

/-- One `ExpenseGroupJoinRequest` row. -/
structure JoinRequest where
  group_id : ℕ
  user_id : ℕ
  status : JoinRequestStatus
deriving DecidableEq

/-- Persistent state touched by the join flow: groups `(id, invite_code)`,
membership rows `(group_id, user_id)`, join-request rows, and the
expense-split and settlement rows of the ledger (kept so that balances are
expressible). -/
structure AppState where
  groups : List (ℕ × ℕ)
  members : List (ℕ × ℕ)
  join_requests : List JoinRequest
  splits : List (ℕ × ℕ × ℤ)
  settlements : List (ℕ × ℕ × ℤ)
deriving DecidableEq

/-- `MAX_JOIN_REQUEST_ATTEMPTS` (src/api/src/groups/service.py line 31). -/
def MAX_JOIN_REQUEST_ATTEMPTS : ℕ := 3

/-- Embedding of `get_group_by_invite_code`: the group whose (normalized)
invite code matches, if any. -/
def get_group_by_invite_code (st : AppState) (code : ℕ) : Option ℕ :=
  (st.groups.find? fun g => g.2 == code).map Prod.fst

/-- Embedding of `is_member`: whether a membership row exists. -/
def is_member (st : AppState) (group_id user_id : ℕ) : Bool :=
  st.members.any fun m => m.1 == group_id && m.2 == user_id

/-- Embedding of `get_pending_join_request`. -/
def get_pending_join_request (st : AppState) (group_id user_id : ℕ) : Option JoinRequest :=
  st.join_requests.find? fun r =>
    r.group_id == group_id && r.user_id == user_id && r.status == JoinRequestStatus.pending

/-- Embedding of `count_declined_join_requests`. -/
def count_declined_join_requests (st : AppState) (group_id user_id : ℕ) : ℕ :=
  (st.join_requests.filter fun r =>
    r.group_id == group_id && r.user_id == user_id && r.status == JoinRequestStatus.declined).length

/-- Embedding of `create_join_request_by_invite_code`: resolve the code;
reject when the user is already a member; return an existing pending
request without creating a new one; reject after too many declined
attempts; otherwise persist a fresh pending request.  Returns the
service's result (`ValueError` messages as errors, otherwise the request
and the created flag) together with the resulting state. -/
def create_join_request_by_invite_code (st : AppState) (user code : ℕ) :
    Except String (JoinRequest × Bool) × AppState :=
  match get_group_by_invite_code st code with
  | none => (.error "Group not found", st)
  | some group_id =>
    if is_member st group_id user then (.error "User already a member", st)
    else
      match get_pending_join_request st group_id user with
      | some pending_request => (.ok (pending_request, false), st)
      | none =>
        if MAX_JOIN_REQUEST_ATTEMPTS ≤ count_declined_join_requests st group_id user then
          (.error "Join request limit reached", st)
        else
          let db_request : JoinRequest := ⟨group_id, user, JoinRequestStatus.pending⟩
          (.ok (db_request, true),
            { st with join_requests := st.join_requests ++ [db_request] })

/-! ## Theorems -/

theorem splitLoop_map_fst (base remainder : ℤ) :
    ∀ (ms : List ℕ) (idx : ℕ), (splitLoop base remainder idx ms).map Prod.fst = ms := by
  intro ms
  induction ms with
  | nil => intro idx; rfl
  | cons m ms ih => intro idx; simp [splitLoop, ih]

theorem splitLoop_share_mem (base remainder : ℤ) :
    ∀ (ms : List ℕ) (idx : ℕ) (p : ℕ × ℤ), p ∈ splitLoop base remainder idx ms →
      p.2 = base ∨ p.2 = base + 1 := by
  intro ms
  induction ms with
  | nil => intro idx p hp; simp [splitLoop] at hp
  | cons m ms ih =>
      intro idx p hp
      simp only [splitLoop, List.mem_cons] at hp
      rcases hp with hp | hp
      · subst hp
        by_cases h : (idx : ℤ) < remainder
        · right; simp [h]
        · left; simp [h]
      · exact ih (idx + 1) p hp

theorem splitLoop_sum (base remainder : ℤ) :
    ∀ (ms : List ℕ) (idx : ℕ),
      ((splitLoop base remainder idx ms).map Prod.snd).sum =
        (ms.length : ℤ) * base + max 0 (min (remainder - idx) (ms.length : ℤ)) := by
  intro ms
  induction ms with
  | nil => intro idx; simp [splitLoop]
  | cons m ms ih =>
      intro idx
      simp only [splitLoop, List.map_cons, List.sum_cons, List.length_cons, ih (idx + 1)]
      push_cast
      have hb : ((ms.length : ℤ) + 1) * base = (ms.length : ℤ) * base + base := by ring
      rw [hb]
      by_cases h : (idx : ℤ) < remainder
      · simp only [if_pos h]; omega
      · simp only [if_neg h]; omega

theorem splitLoop_getElem? (base remainder : ℤ) :
    ∀ (ms : List ℕ) (idx i : ℕ),
      (splitLoop base remainder idx ms)[i]? =
        ms[i]?.map (fun m => (m, base + if ((idx + i : ℕ) : ℤ) < remainder then 1 else 0)) := by
  intro ms
  induction ms with
  | nil => intro idx i; rfl
  | cons m ms ih =>
      intro idx i
      cases i with
      | zero => simp [splitLoop]
      | succ j =>
          have heq : idx + (j + 1) = idx + 1 + j := by omega
          simp [splitLoop, ih (idx + 1) j, heq]

theorem allocate_splits_sum (T : ℤ) (members : List ℕ) (hne : members ≠ []) :
    ((allocate_splits T members).map Prod.snd).sum = T := by
  have hlen : 0 < members.length := List.length_pos.mpr hne
  have hempty : members.isEmpty = false := by
    cases members with
    | nil => exact absurd rfl hne
    | cons a l => rfl
  have hn0 : (0 : ℤ) < (members.length : ℤ) := by exact_mod_cast hlen
  have hne0 : (members.length : ℤ) ≠ 0 := ne_of_gt hn0
  have hmod : T.fmod (members.length : ℤ) = T % (members.length : ℤ) :=
    Int.fmod_eq_emod T (le_of_lt hn0)
  have hr0 : 0 ≤ T.fmod (members.length : ℤ) := by
    rw [hmod]; exact Int.emod_nonneg T hne0
  have hrn : T.fmod (members.length : ℤ) < (members.length : ℤ) := by
    rw [hmod]; exact Int.emod_lt_of_pos T hn0
  simp only [allocate_splits, hempty, Bool.false_eq_true, if_false]
  rw [splitLoop_sum]
  have hdm := Int.fdiv_add_fmod T (members.length : ℤ)
  omega

/-- C3 (counterexample): the claim quantifies over every already-quantized
total, but for a negative total the allocator hands out negative shares:
`allocate_splits (-1) [1]` produces the single share `-1` cent, violating
the claimed "no share is negative".  (Expense values are never checked for
positivity in `ExpenseBase`.) -/
theorem allocate_splits_negative_share_counterexample :
    allocate_splits (-1) [1] = [(1, -1)] ∧ ∃ p ∈ allocate_splits (-1) [1], p.2 < 0 := by
  decide

/-- C3 (amended): for every already-quantized NONNEGATIVE total `T` (in
cents) and non-empty ascending member list, the allocator emits exactly one
share per member in order, the shares sum to `T`, each share is
`⌊T/n⌋` or `⌊T/n⌋ + 1` cents, no share is negative, and position `i`
receives the extra cent exactly when `i < T mod n` (so the first
`T mod n` members in ascending user-id order get it). -/
theorem allocate_splits_spec (T : ℤ) (members : List ℕ)
    (hT : 0 ≤ T) (hne : members ≠ []) (hasc : members.Sorted (· < ·)) :
    (allocate_splits T members).map Prod.fst = members ∧
    ((allocate_splits T members).map Prod.snd).sum = T ∧
    (∀ p ∈ allocate_splits T members,
      p.2 = T.fdiv (members.length : ℤ) ∨ p.2 = T.fdiv (members.length : ℤ) + 1) ∧
    (∀ p ∈ allocate_splits T members, 0 ≤ p.2) ∧
    (∀ i : ℕ, (allocate_splits T members)[i]? =
      members[i]?.map (fun m =>
        (m, T.fdiv (members.length : ℤ) +
          if (i : ℤ) < T.fmod (members.length : ℤ) then 1 else 0))) := by
  have hlen : 0 < members.length := List.length_pos.mpr hne
  have hempty : members.isEmpty = false := by
    cases members with
    | nil => exact absurd rfl hne
    | cons a l => rfl
  have hn0 : (0 : ℤ) < (members.length : ℤ) := by exact_mod_cast hlen
  have hne0 : (members.length : ℤ) ≠ 0 := ne_of_gt hn0
  have hmod : T.fmod (members.length : ℤ) = T % (members.length : ℤ) :=
    Int.fmod_eq_emod T (le_of_lt hn0)
  have hr0 : 0 ≤ T.fmod (members.length : ℤ) := by
    rw [hmod]; exact Int.emod_nonneg T hne0
  have hrn : T.fmod (members.length : ℤ) < (members.length : ℤ) := by
    rw [hmod]; exact Int.emod_lt_of_pos T hn0
  refine ⟨?_, allocate_splits_sum T members hne, ?_, ?_, ?_⟩ <;>
    simp only [allocate_splits, hempty, Bool.false_eq_true, if_false]
  · exact splitLoop_map_fst _ _ _ _
  · intro p hp
    exact splitLoop_share_mem _ _ _ _ p hp
  · intro p hp
    have hbase : 0 ≤ T.fdiv (members.length : ℤ) := Int.fdiv_nonneg hT (le_of_lt hn0)
    rcases splitLoop_share_mem _ _ _ _ p hp with h | h <;> omega
  · intro i
    have := splitLoop_getElem? (T.fdiv (members.length : ℤ)) (T.fmod (members.length : ℤ))
      members 0 i
    simpa using this

/-- C3 (witness): concrete run of `allocate_splits_spec` at `T = 7` cents,
members `[1, 2, 3]`. -/
theorem allocate_splits_spec_witness :
    (0 : ℤ) ≤ 7 ∧ ([1, 2, 3] : List ℕ) ≠ [] ∧
    ((allocate_splits 7 [1, 2, 3]).map Prod.snd).sum = 7 ∧
    (allocate_splits 7 [1, 2, 3]).map Prod.fst = [1, 2, 3] := by
  refine ⟨by decide, by decide, ?_, ?_⟩
  · exact (allocate_splits_spec 7 [1, 2, 3] (by decide) (by decide) (by decide)).2.1
  · exact (allocate_splits_spec 7 [1, 2, 3] (by decide) (by decide) (by decide)).1

theorem sum_addTo (S : Finset ℕ) (bal : ℕ → ℤ) (u : ℕ) (x : ℤ) (hu : u ∈ S) :
    ∑ v ∈ S, addTo bal u x v = (∑ v ∈ S, bal v) + x := by
  rw [addTo, Finset.sum_update_of_mem hu,
    Finset.sum_eq_sum_diff_singleton_add hu bal]
  ring

theorem sum_apply_split (S : Finset ℕ) (bal : ℕ → ℤ) (row : ℕ × ℕ × ℤ)
    (h1 : row.1 ∈ S) (h2 : row.2.1 ∈ S) :
    ∑ v ∈ S, apply_split bal row v = ∑ v ∈ S, bal v := by
  rw [apply_split]
  split
  · rfl
  · rw [sum_addTo S _ _ _ h2, sum_addTo S _ _ _ h1]
    ring

theorem sum_apply_settlement (S : Finset ℕ) (bal : ℕ → ℤ) (row : ℕ × ℕ × ℤ)
    (h1 : row.1 ∈ S) (h2 : row.2.1 ∈ S) :
    ∑ v ∈ S, apply_settlement bal row v = ∑ v ∈ S, bal v := by
  rw [apply_settlement, sum_addTo S _ _ _ h2, sum_addTo S _ _ _ h1]
  ring

theorem sum_foldl_apply_split (S : Finset ℕ) :
    ∀ (rows : List (ℕ × ℕ × ℤ)) (bal : ℕ → ℤ),
      (∀ r ∈ rows, r.1 ∈ S ∧ r.2.1 ∈ S) →
      ∑ v ∈ S, (rows.foldl apply_split bal) v = ∑ v ∈ S, bal v := by
  intro rows
  induction rows with
  | nil => intro bal _; rfl
  | cons r rows ih =>
      intro bal h
      rw [List.foldl_cons, ih _ fun q hq => h q (List.mem_cons_of_mem r hq),
        sum_apply_split S bal r (h r (List.mem_cons_self r rows)).1
          (h r (List.mem_cons_self r rows)).2]

theorem sum_foldl_apply_settlement (S : Finset ℕ) :
    ∀ (rows : List (ℕ × ℕ × ℤ)) (bal : ℕ → ℤ),
      (∀ r ∈ rows, r.1 ∈ S ∧ r.2.1 ∈ S) →
      ∑ v ∈ S, (rows.foldl apply_settlement bal) v = ∑ v ∈ S, bal v := by
  intro rows
  induction rows with
  | nil => intro bal _; rfl
  | cons r rows ih =>
      intro bal h
      rw [List.foldl_cons, ih _ fun q hq => h q (List.mem_cons_of_mem r hq),
        sum_apply_settlement S bal r (h r (List.mem_cons_self r rows)).1
          (h r (List.mem_cons_self r rows)).2]

/-- C1: for every finite sequence of expense splits (split holder, expense
creator, share) and settlement rows (debtor, creditor, amount), the per-user
balances computed by the aggregation step of
`_calculate_group_settlement_plan` sum to exactly zero over all users: the
sum over any finite set `S` of users containing every user mentioned in the
input is zero (users outside the input hold balance zero). -/
theorem aggregate_balances_conservation
    (splits settlements : List (ℕ × ℕ × ℤ)) (S : Finset ℕ)
    (hsp : ∀ r ∈ splits, r.1 ∈ S ∧ r.2.1 ∈ S)
    (hse : ∀ r ∈ settlements, r.1 ∈ S ∧ r.2.1 ∈ S) :
    ∑ u ∈ S, aggregate_balances splits settlements u = 0 := by
  rw [aggregate_balances, sum_foldl_apply_settlement S settlements _ hse,
    sum_foldl_apply_split S splits _ hsp]
  simp

/-- C1 (witness): concrete run of `aggregate_balances_conservation` on two
splits of an expense created by user 1 and one settlement. -/
theorem aggregate_balances_conservation_witness :
    (∀ r ∈ [(2, 1, 500), (3, 1, 500)], r.1 ∈ ({1, 2, 3} : Finset ℕ) ∧ r.2.1 ∈ ({1, 2, 3} : Finset ℕ)) ∧
    ∑ u ∈ ({1, 2, 3} : Finset ℕ),
      aggregate_balances [(2, 1, 500), (3, 1, 500)] [(2, 1, 500)] u = 0 := by
  refine ⟨by decide, ?_⟩
  exact aggregate_balances_conservation [(2, 1, 500), (3, 1, 500)] [(2, 1, 500)]
    {1, 2, 3} (by decide) (by decide)

theorem balanceOf_cons (a : ℕ) (x : ℤ) (l : List (ℕ × ℤ)) (u : ℕ) :
    balanceOf ((a, x) :: l) u = (if a = u then x else 0) + balanceOf l u := by
  simp [balanceOf]

theorem paidBy_cons (u a c : ℕ) (x : ℤ) (ts : List (ℕ × ℕ × ℤ)) :
    paidBy u ((a, c, x) :: ts) = (if a = u then x else 0) + paidBy u ts := by
  simp [paidBy]

theorem receivedBy_cons (u a c : ℕ) (x : ℤ) (ts : List (ℕ × ℕ × ℤ)) :
    receivedBy u ((a, c, x) :: ts) = (if c = u then x else 0) + receivedBy u ts := by
  simp [receivedBy]

/-- Strictly positive lists with sum zero are empty. -/
theorem eq_nil_of_sum_eq_zero (l : List (ℕ × ℤ))
    (hpos : ∀ p ∈ l, 0 < p.2) (hsum : (l.map Prod.snd).sum = 0) : l = [] := by
  cases hl : l with
  | nil => rfl
  | cons p l' =>
      exfalso
      have : 0 < ((l.map Prod.snd)).sum := by
        refine List.sum_pos _ (fun x hx => ?_) (by simp [hl])
        rcases List.mem_map.mp hx with ⟨q, hq, rfl⟩
        exact hpos q hq
      omega

/-- Core invariant of the greedy loop: when every pending debtor and
creditor amount is strictly positive and the two sides have equal totals,
the emitted transfers make every user pay exactly their owed amount and
receive exactly their credited amount. -/
theorem greedyLoop_clears :
    ∀ (ds cs : List (ℕ × ℤ)),
      (∀ p ∈ ds, 0 < p.2) → (∀ p ∈ cs, 0 < p.2) →
      (ds.map Prod.snd).sum = (cs.map Prod.snd).sum →
      ∀ u, paidBy u (greedyLoop ds cs) = balanceOf ds u ∧
        receivedBy u (greedyLoop ds cs) = balanceOf cs u := by
  intro ds cs
  induction ds, cs using greedyLoop.induct with
  | case1 cs =>
      intro _ hcs hsum u
      have hcs0 : cs = [] := by
        refine eq_nil_of_sum_eq_zero cs hcs ?_
        simpa using hsum.symm
      subst hcs0
      simp [greedyLoop, paidBy, receivedBy, balanceOf]
  | case2 d ds =>
      intro hds _ hsum u
      have hds0 : (d :: ds) = [] := by
        refine eq_nil_of_sum_eq_zero _ hds ?_
        simpa using hsum
      simp at hds0
  | case3 d da ds c ca cs t ht ih =>
      intro hds hcs hsum u
      have htt : t = min da ca := rfl
      rw [htt] at ht
      simp only [dite_eq_ite, htt] at ih
      have htda : min da ca ≤ da := min_le_left _ _
      have htca : min da ca ≤ ca := min_le_right _ _
      have hnds_pos : ∀ p ∈ (if da - min da ca = 0 then ds
          else (d, da - min da ca) :: ds), 0 < p.2 := by
        split
        · exact fun p hp => hds p (List.mem_cons_of_mem _ hp)
        · rename_i hne
          intro p hp
          rcases List.mem_cons.mp hp with rfl | hp
          · simp only
            omega
          · exact hds p (List.mem_cons_of_mem _ hp)
      have hncs_pos : ∀ p ∈ (if ca - min da ca = 0 then cs
          else (c, ca - min da ca) :: cs), 0 < p.2 := by
        split
        · exact fun p hp => hcs p (List.mem_cons_of_mem _ hp)
        · rename_i hne
          intro p hp
          rcases List.mem_cons.mp hp with rfl | hp
          · simp only
            omega
          · exact hcs p (List.mem_cons_of_mem _ hp)
      have hnds_sum : ((if da - min da ca = 0 then ds
          else (d, da - min da ca) :: ds).map Prod.snd).sum =
          (((d, da) :: ds).map Prod.snd).sum - min da ca := by
        split
        · rename_i h0
          simp only [List.map_cons, List.sum_cons]
          omega
        · simp only [List.map_cons, List.sum_cons]
          ring
      have hncs_sum : ((if ca - min da ca = 0 then cs
          else (c, ca - min da ca) :: cs).map Prod.snd).sum =
          (((c, ca) :: cs).map Prod.snd).sum - min da ca := by
        split
        · rename_i h0
          simp only [List.map_cons, List.sum_cons]
          omega
        · simp only [List.map_cons, List.sum_cons]
          ring
      have hnds_bal : balanceOf (if da - min da ca = 0 then ds
          else (d, da - min da ca) :: ds) u =
          balanceOf ((d, da) :: ds) u - (if d = u then min da ca else 0) := by
        split
        · rename_i h0
          rw [balanceOf_cons]
          split <;> omega
        · rw [balanceOf_cons, balanceOf_cons]
          split <;> omega
      have hncs_bal : balanceOf (if ca - min da ca = 0 then cs
          else (c, ca - min da ca) :: cs) u =
          balanceOf ((c, ca) :: cs) u - (if c = u then min da ca else 0) := by
        split
        · rename_i h0
          rw [balanceOf_cons]
          split <;> omega
        · rw [balanceOf_cons, balanceOf_cons]
          split <;> omega
      have ihu := ih hnds_pos hncs_pos (by rw [hnds_sum, hncs_sum, hsum]) u
      rw [greedyLoop]
      rw [if_pos ht, paidBy_cons, receivedBy_cons, ihu.1, ihu.2, hnds_bal, hncs_bal]
      constructor <;> split_ifs <;> omega
  | case4 d da ds c ca cs t ht ih =>
      intro hds hcs hsum u
      exfalso
      have hda : 0 < da := hds (d, da) (List.mem_cons_self _ _)
      have hca : 0 < ca := hcs (c, ca) (List.mem_cons_self _ _)
      exact ht (lt_min hda hca)

theorem debtors_pos (bl : List (ℕ × ℤ)) :
    ∀ p ∈ bl.filterMap (fun p => if p.2 < 0 then some (p.1, -p.2) else none), 0 < p.2 := by
  intro p hp
  rcases List.mem_filterMap.mp hp with ⟨q, _, hfq⟩
  by_cases h : q.2 < 0
  · rw [if_pos h] at hfq
    cases hfq
    simpa using h
  · rw [if_neg h] at hfq
    cases hfq

theorem creditors_pos (bl : List (ℕ × ℤ)) :
    ∀ p ∈ bl.filterMap (fun p => if 0 < p.2 then some p else none), 0 < p.2 := by
  intro p hp
  rcases List.mem_filterMap.mp hp with ⟨q, _, hfq⟩
  by_cases h : 0 < q.2
  · rw [if_pos h] at hfq
    cases hfq
    exact h
  · rw [if_neg h] at hfq
    cases hfq

theorem creditors_sub_debtors_sum (bl : List (ℕ × ℤ)) :
    ((bl.filterMap (fun p => if 0 < p.2 then some p else none)).map Prod.snd).sum -
      ((bl.filterMap (fun p => if p.2 < 0 then some (p.1, -p.2) else none)).map Prod.snd).sum =
      (bl.map Prod.snd).sum := by
  induction bl with
  | nil => rfl
  | cons p l ih =>
      obtain ⟨a, x⟩ := p
      rcases lt_trichotomy x 0 with h | h | h
      · have h1 : ¬ (0 : ℤ) < x := by omega
        simp only [List.filterMap_cons, if_pos h, if_neg h1, List.map_cons, List.sum_cons]
        omega
      · have h1 : ¬ x < (0 : ℤ) := by omega
        have h2 : ¬ (0 : ℤ) < x := by omega
        simp only [List.filterMap_cons, if_neg h1, if_neg h2, List.map_cons, List.sum_cons]
        omega
      · have h1 : ¬ x < (0 : ℤ) := by omega
        simp only [List.filterMap_cons, if_pos h, if_neg h1, List.map_cons, List.sum_cons]
        omega

theorem creditors_sub_debtors_balanceOf (bl : List (ℕ × ℤ)) (u : ℕ) :
    balanceOf (bl.filterMap (fun p => if 0 < p.2 then some p else none)) u -
      balanceOf (bl.filterMap (fun p => if p.2 < 0 then some (p.1, -p.2) else none)) u =
      balanceOf bl u := by
  induction bl with
  | nil => rfl
  | cons p l ih =>
      obtain ⟨a, x⟩ := p
      rcases lt_trichotomy x 0 with h | h | h
      · have h1 : ¬ (0 : ℤ) < x := by omega
        simp only [List.filterMap_cons, if_pos h, if_neg h1]
        rw [balanceOf_cons, balanceOf_cons]
        split <;> omega
      · have h1 : ¬ x < (0 : ℤ) := by omega
        have h2 : ¬ (0 : ℤ) < x := by omega
        simp only [List.filterMap_cons, if_neg h1, if_neg h2]
        rw [balanceOf_cons]
        split <;> omega
      · have h1 : ¬ x < (0 : ℤ) := by omega
        simp only [List.filterMap_cons, if_pos h, if_neg h1]
        rw [balanceOf_cons, balanceOf_cons]
        split <;> omega

/-- C2: for every balances mapping (association list of user, cents with
unique keys — integer cents being exactly the 2-decimal-place amounts the
aggregator produces) summing to zero, applying every transfer of
`minimize_settlement` as a debit to its debtor and a credit to its creditor
yields exactly zero for every user, and if every input balance is zero the
plan is the empty list. -/
theorem minimize_settlement_settles (bl : List (ℕ × ℤ))
    (_hkeys : (bl.map Prod.fst).Nodup) (hsum : (bl.map Prod.snd).sum = 0) :
    (∀ u, settle bl (minimize_settlement bl) u = 0) ∧
    ((∀ p ∈ bl, p.2 = 0) → minimize_settlement bl = []) := by
  constructor
  · intro u
    rw [settle, minimize_settlement]
    have pd := (List.perm_insertionSort planOrder
      (bl.filterMap fun p => if p.2 < 0 then some (p.1, -p.2) else none))
    have pc := (List.perm_insertionSort planOrder
      (bl.filterMap fun p => if 0 < p.2 then some p else none))
    have hclear := greedyLoop_clears _ _
      (fun p hp => debtors_pos bl p (pd.mem_iff.mp hp))
      (fun p hp => creditors_pos bl p (pc.mem_iff.mp hp))
      (by
        rw [(pd.map Prod.snd).sum_eq, (pc.map Prod.snd).sum_eq]
        have := creditors_sub_debtors_sum bl
        omega) u
    rw [hclear.1, hclear.2]
    simp only [balanceOf]
    rw [(pd.map fun p => if p.1 = u then p.2 else 0).sum_eq,
      (pc.map fun p => if p.1 = u then p.2 else 0).sum_eq]
    have hb := creditors_sub_debtors_balanceOf bl u
    simp only [balanceOf] at hb
    omega
  · intro hzero
    rw [minimize_settlement]
    have hd : (bl.filterMap fun p => if p.2 < 0 then some (p.1, -p.2) else none) = [] := by
      rw [List.filterMap_eq_nil_iff]
      intro p hp
      simp [hzero p hp]
    rw [hd]
    simp [List.insertionSort, greedyLoop]

/-- C2 (witness): concrete run of `minimize_settlement_settles` on the
zero-sum balances `{1 ↦ -300, 2 ↦ 100, 3 ↦ 200}`. -/
theorem minimize_settlement_settles_witness :
    (([(1, -300), (2, 100), (3, 200)] : List (ℕ × ℤ)).map Prod.snd).sum = 0 ∧
    settle [(1, -300), (2, 100), (3, 200)]
      (minimize_settlement [(1, -300), (2, 100), (3, 200)]) 1 = 0 ∧
    settle [(1, -300), (2, 100), (3, 200)]
      (minimize_settlement [(1, -300), (2, 100), (3, 200)]) 3 = 0 := by
  refine ⟨by decide, ?_, ?_⟩
  · exact (minimize_settlement_settles [(1, -300), (2, 100), (3, 200)]
      (by decide) (by decide)).1 1
  · exact (minimize_settlement_settles [(1, -300), (2, 100), (3, 200)]
      (by decide) (by decide)).1 3

theorem greedyLoop_length : ∀ (ds cs : List (ℕ × ℤ)),
    (greedyLoop ds cs).length ≤ ds.length + cs.length - 1 := by
  intro ds cs
  induction ds, cs using greedyLoop.induct with
  | case1 cs => simp [greedyLoop]
  | case2 hd tl => simp [greedyLoop]
  | case3 d da ds c ca cs t ht ih =>
      have htt : t = min da ca := rfl
      rw [greedyLoop, if_pos (htt ▸ ht)]
      simp only [dite_eq_ite, htt] at ih
      simp only [List.length_cons]
      rcases min_cases da ca with ⟨hm, _⟩ | ⟨hm, _⟩
      · rw [hm] at ih ⊢
        rw [if_pos (sub_self da)] at ih ⊢
        rcases eq_or_ne (ca - da) 0 with h0 | h0
        · rw [if_pos h0] at ih ⊢
          omega
        · rw [if_neg h0] at ih ⊢
          simp only [List.length_cons] at ih ⊢
          omega
      · rw [hm] at ih ⊢
        rw [if_pos (sub_self ca)] at ih ⊢
        rcases eq_or_ne (da - ca) 0 with h0 | h0
        · rw [if_pos h0] at ih ⊢
          omega
        · rw [if_neg h0] at ih ⊢
          simp only [List.length_cons] at ih ⊢
          omega
  | case4 d da ds c ca cs t ht ih =>
      have htt : t = min da ca := rfl
      rw [greedyLoop, if_neg (htt ▸ ht)]
      simp only [dite_eq_ite, htt] at ih
      rcases min_cases da ca with ⟨hm, _⟩ | ⟨hm, _⟩
      · rw [hm] at ih ⊢
        rw [if_pos (sub_self da)] at ih ⊢
        rcases eq_or_ne (ca - da) 0 with h0 | h0
        · rw [if_pos h0] at ih ⊢
          simp only [List.length_cons]
          omega
        · rw [if_neg h0] at ih ⊢
          simp only [List.length_cons] at ih ⊢
          omega
      · rw [hm] at ih ⊢
        rw [if_pos (sub_self ca)] at ih ⊢
        rcases eq_or_ne (da - ca) 0 with h0 | h0
        · rw [if_pos h0] at ih ⊢
          simp only [List.length_cons]
          omega
        · rw [if_neg h0] at ih ⊢
          simp only [List.length_cons] at ih ⊢
          omega

theorem debtors_add_creditors_length (bl : List (ℕ × ℤ)) :
    (bl.filterMap fun p => if p.2 < 0 then some (p.1, -p.2) else none).length +
      (bl.filterMap fun p => if 0 < p.2 then some p else none).length =
      (bl.filter fun p => p.2 ≠ 0).length := by
  induction bl with
  | nil => rfl
  | cons p l ih =>
      obtain ⟨a, x⟩ := p
      simp only [ne_eq, decide_not] at ih ⊢
      rcases lt_trichotomy x 0 with h | h | h
      · have h2 : decide (x = 0) = false := by simp; omega
        simp only [List.filterMap_cons, if_pos h, if_neg (by omega : ¬ (0 : ℤ) < x),
          List.filter_cons, h2, Bool.not_false, if_true, List.length_cons]
        omega
      · subst h
        simp only [List.filterMap_cons, List.filter_cons]
        norm_num
        omega
      · have h2 : decide (x = 0) = false := by simp; omega
        simp only [List.filterMap_cons, if_pos h, if_neg (by omega : ¬ x < (0 : ℤ)),
          List.filter_cons, h2, Bool.not_false, if_true, List.length_cons]
        omega

/-- C4: for every zero-sum balances mapping, the greedy settlement plan
contains at most `n - 1` transfers, where `n` is the number of users whose
balance is non-zero. -/
theorem minimize_settlement_transfer_bound (bl : List (ℕ × ℤ))
    (_hkeys : (bl.map Prod.fst).Nodup) (_hsum : (bl.map Prod.snd).sum = 0) :
    (minimize_settlement bl).length ≤ (bl.filter fun p => p.2 ≠ 0).length - 1 := by
  rw [minimize_settlement]
  calc (greedyLoop
        ((bl.filterMap fun p => if p.2 < 0 then some (p.1, -p.2) else none).insertionSort
          planOrder)
        ((bl.filterMap fun p => if 0 < p.2 then some p else none).insertionSort
          planOrder)).length
      ≤ ((bl.filterMap fun p => if p.2 < 0 then some (p.1, -p.2) else none).insertionSort
          planOrder).length +
        ((bl.filterMap fun p => if 0 < p.2 then some p else none).insertionSort
          planOrder).length - 1 := greedyLoop_length _ _
    _ = (bl.filter fun p => p.2 ≠ 0).length - 1 := by
        rw [List.length_insertionSort, List.length_insertionSort,
          debtors_add_creditors_length]

/-- C4 (witness): concrete run of `minimize_settlement_transfer_bound` on
three non-zero balances, yielding at most two transfers. -/
theorem minimize_settlement_transfer_bound_witness :
    (([(1, -300), (2, 100), (3, 200)] : List (ℕ × ℤ)).map Prod.snd).sum = 0 ∧
    (minimize_settlement [(1, -300), (2, 100), (3, 200)]).length ≤
      (([(1, -300), (2, 100), (3, 200)] : List (ℕ × ℤ)).filter fun p => p.2 ≠ 0).length - 1 := by
  refine ⟨by decide, ?_⟩
  exact minimize_settlement_transfer_bound [(1, -300), (2, 100), (3, 200)]
    (by decide) (by decide)

theorem greedyLoop_mem : ∀ (ds cs : List (ℕ × ℤ)), ∀ tr ∈ greedyLoop ds cs,
    0 < tr.2.2 ∧ tr.1 ∈ ds.map Prod.fst ∧ tr.2.1 ∈ cs.map Prod.fst := by
  intro ds cs
  induction ds, cs using greedyLoop.induct with
  | case1 cs => intro tr htr; simp [greedyLoop] at htr
  | case2 hd tl => intro tr htr; simp [greedyLoop] at htr
  | case3 d da ds c ca cs t ht ih =>
      intro tr htr
      have htt : t = min da ca := rfl
      rw [greedyLoop, if_pos (htt ▸ ht)] at htr
      simp only [dite_eq_ite, htt] at ih
      rcases List.mem_cons.mp htr with rfl | htr
      · refine ⟨htt ▸ ht, ?_, ?_⟩ <;> simp
      · have := ih tr htr
        refine ⟨this.1, ?_, ?_⟩
        · have h1 := this.2.1
          revert h1
          split <;> intro h1 <;> simp at h1 ⊢ <;> tauto
        · have h2 := this.2.2
          revert h2
          split <;> intro h2 <;> simp at h2 ⊢ <;> tauto
  | case4 d da ds c ca cs t ht ih =>
      intro tr htr
      have htt : t = min da ca := rfl
      rw [greedyLoop, if_neg (htt ▸ ht)] at htr
      simp only [dite_eq_ite, htt] at ih
      have := ih tr htr
      refine ⟨this.1, ?_, ?_⟩
      · have h1 := this.2.1
        revert h1
        split <;> intro h1 <;> simp at h1 ⊢ <;> tauto
      · have h2 := this.2.2
        revert h2
        split <;> intro h2 <;> simp at h2 ⊢ <;> tauto

/-- Association lists with pairwise-distinct keys determine their entries:
two entries sharing a key are equal. -/
theorem key_unique (bl : List (ℕ × ℤ)) (hkeys : (bl.map Prod.fst).Nodup) :
    ∀ q ∈ bl, ∀ q' ∈ bl, q.1 = q'.1 → q = q' := by
  induction bl with
  | nil => intro q hq; simp at hq
  | cons p l ih =>
      rw [List.map_cons, List.nodup_cons] at hkeys
      intro q hq q' hq' heq
      rcases List.mem_cons.mp hq with h1 | h1 <;> rcases List.mem_cons.mp hq' with h2 | h2
      · rw [h1, h2]
      · exfalso
        apply hkeys.1
        have hm : q'.1 ∈ l.map Prod.fst := List.mem_map_of_mem Prod.fst h2
        rwa [← heq, h1] at hm
      · exfalso
        apply hkeys.1
        have hm : q.1 ∈ l.map Prod.fst := List.mem_map_of_mem Prod.fst h1
        rwa [heq, h2] at hm
      · exact ih hkeys.2 q h1 q' h2 heq

theorem mem_debtor_keys (bl : List (ℕ × ℤ)) (u : ℕ)
    (hu : u ∈ (bl.filterMap fun p => if p.2 < 0 then some (p.1, -p.2) else none).map Prod.fst) :
    ∃ v, (u, v) ∈ bl ∧ v < 0 := by
  rcases List.mem_map.mp hu with ⟨p, hp, hpu⟩
  rcases List.mem_filterMap.mp hp with ⟨q, hq, hfq⟩
  by_cases h : q.2 < 0
  · rw [if_pos h] at hfq
    have hqp : (q.1, -q.2) = p := Option.some.inj hfq
    refine ⟨q.2, ?_, h⟩
    rw [← hpu, ← hqp]
    simpa using hq
  · rw [if_neg h] at hfq
    cases hfq

theorem mem_creditor_keys (bl : List (ℕ × ℤ)) (u : ℕ)
    (hu : u ∈ (bl.filterMap fun p => if 0 < p.2 then some p else none).map Prod.fst) :
    ∃ v, (u, v) ∈ bl ∧ 0 < v := by
  rcases List.mem_map.mp hu with ⟨p, hp, hpu⟩
  rcases List.mem_filterMap.mp hp with ⟨q, hq, hfq⟩
  by_cases h : 0 < q.2
  · rw [if_pos h] at hfq
    have hqp : q = p := Option.some.inj hfq
    refine ⟨q.2, ?_, h⟩
    rw [← hpu, ← hqp]
    simpa using hq
  · rw [if_neg h] at hfq
    cases hfq

/-- C10: for every zero-sum balances mapping, every transfer of the greedy
settlement plan has a strictly positive amount and a debtor distinct from
its creditor, and no user appears both as a debtor of one transfer and as a
creditor of another transfer of the plan. -/
theorem minimize_settlement_plan_shape (bl : List (ℕ × ℤ))
    (hkeys : (bl.map Prod.fst).Nodup) (_hsum : (bl.map Prod.snd).sum = 0) :
    (∀ tr ∈ minimize_settlement bl, 0 < tr.2.2 ∧ tr.1 ≠ tr.2.1) ∧
    (∀ tr ∈ minimize_settlement bl, ∀ tr' ∈ minimize_settlement bl, tr.1 ≠ tr'.2.1) := by
  have hdisj : ∀ tr ∈ minimize_settlement bl, ∀ tr' ∈ minimize_settlement bl,
      tr.1 ≠ tr'.2.1 := by
    intro tr htr tr' htr' heq
    rw [minimize_settlement] at htr htr'
    have h1 := (greedyLoop_mem _ _ tr htr).2.1
    have h2 := (greedyLoop_mem _ _ tr' htr').2.2
    rw [((List.perm_insertionSort planOrder _).map Prod.fst).mem_iff] at h1 h2
    rcases mem_debtor_keys bl _ h1 with ⟨v, hv, hvneg⟩
    rcases mem_creditor_keys bl _ h2 with ⟨v', hv', hvpos⟩
    have := key_unique bl hkeys (tr.1, v) hv (tr'.2.1, v') hv' (by simpa using heq)
    have : v = v' := congrArg Prod.snd this
    omega
  refine ⟨fun tr htr => ⟨?_, ?_⟩, hdisj⟩
  · rw [minimize_settlement] at htr
    exact (greedyLoop_mem _ _ tr htr).1
  · exact hdisj tr htr tr htr

/-- C10 (witness): concrete run of `minimize_settlement_plan_shape` on the
zero-sum balances `{1 ↦ -300, 2 ↦ 100, 3 ↦ 200}`. -/
theorem minimize_settlement_plan_shape_witness :
    (([(1, -300), (2, 100), (3, 200)] : List (ℕ × ℤ)).map Prod.fst).Nodup ∧
    (∀ tr ∈ minimize_settlement [(1, -300), (2, 100), (3, 200)], 0 < tr.2.2 ∧ tr.1 ≠ tr.2.1) := by
  refine ⟨by decide, ?_⟩
  exact (minimize_settlement_plan_shape [(1, -300), (2, 100), (3, 200)]
    (by decide) (by decide)).1

theorem mem_filterMap_guard (keys : List ℕ) (cond : ℕ → Prop) [DecidablePred cond]
    (g : ℕ → ℤ) (u : ℕ) (a : ℤ) :
    ((u, a) ∈ keys.filterMap fun k => if cond k then some (k, g k) else none) ↔
      (u ∈ keys ∧ cond u ∧ a = g u) := by
  rw [List.mem_filterMap]
  constructor
  · rintro ⟨k, hk, hfk⟩
    by_cases h : cond k
    · rw [if_pos h] at hfk
      have h2 := Option.some.inj hfk
      have hk1 : k = u := congrArg Prod.fst h2
      have hk2 : g k = a := congrArg Prod.snd h2
      subst hk1
      exact ⟨hk, h, hk2.symm⟩
    · rw [if_neg h] at hfk
      cases hfk
  · rintro ⟨hu, hc, ha⟩
    exact ⟨u, hu, by rw [if_pos hc, ha]⟩

theorem map_fst_filterMap_guard (keys : List ℕ) (cond : ℕ → Prop) [DecidablePred cond]
    (g : ℕ → ℤ) :
    (keys.filterMap fun k => if cond k then some (k, g k) else none).map Prod.fst =
      keys.filter fun k => cond k := by
  induction keys with
  | nil => rfl
  | cons k l ih =>
      by_cases h : cond k <;>
        simp [List.filterMap_cons, List.filter_cons, h, ih]

theorem net_keys_mem (m1 m2 : List (ℕ × ℤ)) (u : ℕ) :
    u ∈ (m1.map Prod.fst ++ m2.map Prod.fst).dedup ↔
      (u ∈ m1.map Prod.fst ∨ u ∈ m2.map Prod.fst) := by
  rw [List.mem_dedup, List.mem_append]

theorem net_owed_by_mem (m1 m2 : List (ℕ × ℤ)) (u : ℕ) (a : ℤ) :
    (u, a) ∈ (net_user_debts m1 m2).owed_by_items ↔
      ((u ∈ m1.map Prod.fst ∨ u ∈ m2.map Prod.fst) ∧ lookupD m2 u < lookupD m1 u ∧
        a = lookupD m1 u - lookupD m2 u) := by
  rw [net_user_debts]
  simp only
  rw [(List.perm_insertionSort planOrder _).mem_iff,
    mem_filterMap_guard _ (fun k => lookupD m2 k < lookupD m1 k)
      (fun k => lookupD m1 k - lookupD m2 k), net_keys_mem]

theorem net_owed_to_mem (m1 m2 : List (ℕ × ℤ)) (u : ℕ) (a : ℤ) :
    (u, a) ∈ (net_user_debts m1 m2).owed_to_items ↔
      ((u ∈ m1.map Prod.fst ∨ u ∈ m2.map Prod.fst) ∧ lookupD m1 u < lookupD m2 u ∧
        a = lookupD m2 u - lookupD m1 u) := by
  rw [net_user_debts]
  simp only
  rw [(List.perm_insertionSort planOrder _).mem_iff,
    mem_filterMap_guard _ (fun k => lookupD m1 k < lookupD m2 k)
      (fun k => lookupD m2 k - lookupD m1 k), net_keys_mem]

theorem net_owed_by_nodup (m1 m2 : List (ℕ × ℤ)) :
    ((net_user_debts m1 m2).owed_by_items.map Prod.fst).Nodup := by
  rw [net_user_debts]
  simp only
  rw [((List.perm_insertionSort planOrder _).map Prod.fst).nodup_iff,
    map_fst_filterMap_guard _ (fun k => lookupD m2 k < lookupD m1 k)
      (fun k => lookupD m1 k - lookupD m2 k)]
  exact (List.nodup_dedup _).filter _

theorem net_owed_to_nodup (m1 m2 : List (ℕ × ℤ)) :
    ((net_user_debts m1 m2).owed_to_items.map Prod.fst).Nodup := by
  rw [net_user_debts]
  simp only
  rw [((List.perm_insertionSort planOrder _).map Prod.fst).nodup_iff,
    map_fst_filterMap_guard _ (fun k => lookupD m1 k < lookupD m2 k)
      (fun k => lookupD m2 k - lookupD m1 k)]
  exact (List.nodup_dedup _).filter _

theorem net_owed_by_total_eq (m1 m2 : List (ℕ × ℤ)) :
    (net_user_debts m1 m2).owed_by_total =
      ((net_user_debts m1 m2).owed_by_items.map Prod.snd).sum := by
  rw [net_user_debts]
  simp only
  exact ((List.perm_insertionSort planOrder _).map Prod.snd).sum_eq.symm

theorem net_owed_to_total_eq (m1 m2 : List (ℕ × ℤ)) :
    (net_user_debts m1 m2).owed_to_total =
      ((net_user_debts m1 m2).owed_to_items.map Prod.snd).sum := by
  rw [net_user_debts]
  simp only
  exact ((List.perm_insertionSort planOrder _).map Prod.snd).sum_eq.symm

/-- C7: `_net_user_debts` drops every counterparty whose two directional
amounts are equal, emits exactly one item (unique counterparty keys) on the
larger side carrying the absolute difference of the two directions, returns
both item lists sorted descending by amount with ascending user id as
tie-break, and returns totals equal to the sums of the kept items of each
side. -/
theorem net_user_debts_spec (m1 m2 : List (ℕ × ℤ)) :
    (∀ u a, (u, a) ∈ (net_user_debts m1 m2).owed_by_items ↔
      ((u ∈ m1.map Prod.fst ∨ u ∈ m2.map Prod.fst) ∧ lookupD m2 u < lookupD m1 u ∧
        a = lookupD m1 u - lookupD m2 u)) ∧
    (∀ u a, (u, a) ∈ (net_user_debts m1 m2).owed_to_items ↔
      ((u ∈ m1.map Prod.fst ∨ u ∈ m2.map Prod.fst) ∧ lookupD m1 u < lookupD m2 u ∧
        a = lookupD m2 u - lookupD m1 u)) ∧
    ((net_user_debts m1 m2).owed_by_items.map Prod.fst).Nodup ∧
    ((net_user_debts m1 m2).owed_to_items.map Prod.fst).Nodup ∧
    (net_user_debts m1 m2).owed_by_items.Sorted planOrder ∧
    (net_user_debts m1 m2).owed_to_items.Sorted planOrder ∧
    (net_user_debts m1 m2).owed_by_total =
      ((net_user_debts m1 m2).owed_by_items.map Prod.snd).sum ∧
    (net_user_debts m1 m2).owed_to_total =
      ((net_user_debts m1 m2).owed_to_items.map Prod.snd).sum :=
  ⟨net_owed_by_mem m1 m2, net_owed_to_mem m1 m2, net_owed_by_nodup m1 m2,
    net_owed_to_nodup m1 m2, List.sorted_insertionSort planOrder _,
    List.sorted_insertionSort planOrder _, net_owed_by_total_eq m1 m2,
    net_owed_to_total_eq m1 m2⟩

theorem addRaw_shape (k : ℕ) (m : List (ℕ × ℤ)) (s v : ℤ) (h : rawShape k m s) :
    rawShape k (addRaw m k v) (s + v) := by
  rcases h with ⟨rfl, rfl⟩ | rfl
  · right
    simp [addRaw]
  · right
    simp [addRaw]

theorem rawShape_lookupD (k : ℕ) (m : List (ℕ × ℤ)) (s : ℤ) (h : rawShape k m s) :
    ∀ u, lookupD m u = if k = u then s else 0 := by
  intro u
  rcases h with ⟨rfl, rfl⟩ | rfl
  · simp [lookupD]
  · simp [lookupD]

theorem rawShape_keys (k : ℕ) (m : List (ℕ × ℤ)) (s : ℤ) (h : rawShape k m s) :
    ∀ u, u ∈ m.map Prod.fst ↔ (m ≠ [] ∧ u = k) := by
  intro u
  rcases h with ⟨rfl, rfl⟩ | rfl
  · simp
  · simp [eq_comm]

/-- A list of pairs with pairwise-distinct keys whose membership is
characterized by a single conditional entry is that conditional entry. -/
theorem list_eq_of_char (l : List (ℕ × ℤ)) (k : ℕ) (v : ℤ) (C : Prop) [Decidable C]
    (hnd : (l.map Prod.fst).Nodup)
    (hchar : ∀ u a, (u, a) ∈ l ↔ (u = k ∧ a = v ∧ C)) :
    l = if C then [(k, v)] else [] := by
  by_cases hC : C
  · rw [if_pos hC]
    cases l with
    | nil =>
        exfalso
        exact List.not_mem_nil (k, v) ((hchar k v).mpr ⟨rfl, rfl, hC⟩)
    | cons p l' =>
        have hp : p = (k, v) := by
          obtain ⟨h1, h2, _⟩ := (hchar p.1 p.2).mp (by simp)
          cases p
          simp_all
        subst hp
        have hl' : l' = [] := by
          rw [List.eq_nil_iff_forall_not_mem]
          intro q hq
          rw [List.map_cons, List.nodup_cons] at hnd
          obtain ⟨h1, _, _⟩ := (hchar q.1 q.2).mp (List.mem_cons_of_mem _ hq)
          have hm : q.1 ∈ l'.map Prod.fst := List.mem_map_of_mem Prod.fst hq
          rw [h1] at hm
          exact hnd.1 hm
        rw [hl']
  · rw [if_neg hC]
    rw [List.eq_nil_iff_forall_not_mem]
    intro q hq
    exact hC ((hchar q.1 q.2).mp (by simpa using hq)).2.2

theorem fold_raws_shape (u k : ℕ) (hne : u ≠ k) :
    ∀ (ts : List (ℕ × ℕ × ℤ)) (acc1 acc2 : List (ℕ × ℤ)) (s1 s2 : ℤ),
      (∀ t ∈ ts, (t.1 = u ∧ t.2.1 = k) ∨ (t.1 = k ∧ t.2.1 = u)) →
      rawShape k acc1 s1 → rawShape k acc2 s2 →
      rawShape k (ts.foldl (debtStep u) (acc1, acc2)).1 (s1 + sumFrom u ts) ∧
      rawShape k (ts.foldl (debtStep u) (acc1, acc2)).2 (s2 + sumFrom k ts) := by
  intro ts
  induction ts with
  | nil =>
      intro acc1 acc2 s1 s2 _ h1 h2
      simpa [sumFrom] using ⟨h1, h2⟩
  | cons t ts ih =>
      intro acc1 acc2 s1 s2 hts h1 h2
      have htail := fun q hq => hts q (List.mem_cons_of_mem t hq)
      rcases hts t (List.mem_cons_self t ts) with ⟨hd, hc⟩ | ⟨hd, hc⟩
      · have hstep : debtStep u (acc1, acc2) t = (addRaw acc1 k t.2.2, acc2) := by
          rw [debtStep, if_pos hd, hc]
        have hsum1 : sumFrom u (t :: ts) = t.2.2 + sumFrom u ts := by
          simp [sumFrom, List.filter_cons, hd]
        have hsum2 : sumFrom k (t :: ts) = sumFrom k ts := by
          have : ¬ t.1 = k := by rw [hd]; exact hne
          simp [sumFrom, List.filter_cons, this]
        rw [List.foldl_cons, hstep, hsum1, hsum2]
        have := ih (addRaw acc1 k t.2.2) acc2 (s1 + t.2.2) s2 htail
          (addRaw_shape k acc1 s1 t.2.2 h1) h2
        constructor
        · have h := this.1
          rwa [show s1 + t.2.2 + sumFrom u ts = s1 + (t.2.2 + sumFrom u ts) by ring] at h
        · exact this.2
      · have hd' : ¬ t.1 = u := by rw [hd]; exact (Ne.symm hne)
        have hstep : debtStep u (acc1, acc2) t = (acc1, addRaw acc2 k t.2.2) := by
          rw [debtStep, if_neg hd', if_pos hc, hd]
        have hsum1 : sumFrom u (t :: ts) = sumFrom u ts := by
          simp [sumFrom, List.filter_cons, hd']
        have hsum2 : sumFrom k (t :: ts) = t.2.2 + sumFrom k ts := by
          simp [sumFrom, List.filter_cons, hd]
        rw [List.foldl_cons, hstep, hsum1, hsum2]
        have := ih acc1 (addRaw acc2 k t.2.2) s1 (s2 + t.2.2) htail h1
          (addRaw_shape k acc2 s2 t.2.2 h2)
        constructor
        · exact this.1
        · have h := this.2
          rwa [show s2 + t.2.2 + sumFrom k ts = s2 + (t.2.2 + sumFrom k ts) by ring] at h

theorem rawShape_empty (k : ℕ) (m : List (ℕ × ℤ)) (s : ℤ) (h : rawShape k m s)
    (hm : m = []) : s = 0 := by
  rcases h with ⟨_, rfl⟩ | rfl
  · rfl
  · simp at hm

theorem net_shaped_to_items (k : ℕ) (m1 m2 : List (ℕ × ℤ)) (s1 s2 : ℤ)
    (h1 : rawShape k m1 s1) (h2 : rawShape k m2 s2) :
    (net_user_debts m1 m2).owed_to_items = if s1 < s2 then [(k, s2 - s1)] else [] := by
  refine list_eq_of_char _ k (s2 - s1) (s1 < s2) (net_owed_to_nodup m1 m2) ?_
  intro u a
  rw [net_owed_to_mem, rawShape_keys k m1 s1 h1 u, rawShape_keys k m2 s2 h2 u,
    rawShape_lookupD k m1 s1 h1 u, rawShape_lookupD k m2 s2 h2 u]
  constructor
  · rintro ⟨hmem, hlt, ha⟩
    have hu : u = k := by rcases hmem with ⟨_, h⟩ | ⟨_, h⟩ <;> exact h
    rw [hu] at hlt ha
    simp only [if_pos rfl] at hlt ha
    exact ⟨hu, ha, hlt⟩
  · rintro ⟨hu, ha, hlt⟩
    refine ⟨?_, ?_, ?_⟩
    · by_cases hm2 : m2 = []
      · have hs2 : s2 = 0 := rawShape_empty k m2 s2 h2 hm2
        by_cases hm1 : m1 = []
        · have hs1 : s1 = 0 := rawShape_empty k m1 s1 h1 hm1
          omega
        · exact Or.inl ⟨hm1, hu⟩
      · exact Or.inr ⟨hm2, hu⟩
    · rw [hu]
      simpa using hlt
    · rw [hu, ha]
      simp

theorem net_shaped_by_items (k : ℕ) (m1 m2 : List (ℕ × ℤ)) (s1 s2 : ℤ)
    (h1 : rawShape k m1 s1) (h2 : rawShape k m2 s2) :
    (net_user_debts m1 m2).owed_by_items = if s2 < s1 then [(k, s1 - s2)] else [] := by
  refine list_eq_of_char _ k (s1 - s2) (s2 < s1) (net_owed_by_nodup m1 m2) ?_
  intro u a
  rw [net_owed_by_mem, rawShape_keys k m1 s1 h1 u, rawShape_keys k m2 s2 h2 u,
    rawShape_lookupD k m1 s1 h1 u, rawShape_lookupD k m2 s2 h2 u]
  constructor
  · rintro ⟨hmem, hlt, ha⟩
    have hu : u = k := by rcases hmem with ⟨_, h⟩ | ⟨_, h⟩ <;> exact h
    rw [hu] at hlt ha
    simp only [if_pos rfl] at hlt ha
    exact ⟨hu, ha, hlt⟩
  · rintro ⟨hu, ha, hlt⟩
    refine ⟨?_, ?_, ?_⟩
    · by_cases hm1 : m1 = []
      · have hs1 : s1 = 0 := rawShape_empty k m1 s1 h1 hm1
        by_cases hm2 : m2 = []
        · have hs2 : s2 = 0 := rawShape_empty k m2 s2 h2 hm2
          omega
        · exact Or.inr ⟨hm2, hu⟩
      · exact Or.inl ⟨hm1, hu⟩
    · rw [hu]
      simpa using hlt
    · rw [hu, ha]
      simp

theorem net_shaped_to_total (k : ℕ) (m1 m2 : List (ℕ × ℤ)) (s1 s2 : ℤ)
    (h1 : rawShape k m1 s1) (h2 : rawShape k m2 s2) :
    (net_user_debts m1 m2).owed_to_total = if s1 < s2 then s2 - s1 else 0 := by
  rw [net_owed_to_total_eq, net_shaped_to_items k m1 m2 s1 s2 h1 h2]
  split <;> simp

theorem net_shaped_by_total (k : ℕ) (m1 m2 : List (ℕ × ℤ)) (s1 s2 : ℤ)
    (h1 : rawShape k m1 s1) (h2 : rawShape k m2 s2) :
    (net_user_debts m1 m2).owed_by_total = if s2 < s1 then s1 - s2 else 0 := by
  rw [net_owed_by_total_eq, net_shaped_by_items k m1 m2 s1 s2 h1 h2]
  split <;> simp

/-- C8: for every transfer list whose transfers all run between the two
users `A` and `B`, the per-user debt views of `calculate_user_debts` from
both perspectives are mirror images: A's owed-to entry for B and owed-to
total equal B's owed-by entry for A and owed-by total, and vice versa. -/
theorem calculate_user_debts_symm (ts : List (ℕ × ℕ × ℤ)) (A B : ℕ) (hAB : A ≠ B)
    (hts : ∀ t ∈ ts, (t.1 = A ∧ t.2.1 = B) ∨ (t.1 = B ∧ t.2.1 = A)) :
    lookupD (calculate_user_debts ts A).owed_to_items B =
      lookupD (calculate_user_debts ts B).owed_by_items A ∧
    (calculate_user_debts ts A).owed_to_total =
      (calculate_user_debts ts B).owed_by_total ∧
    lookupD (calculate_user_debts ts A).owed_by_items B =
      lookupD (calculate_user_debts ts B).owed_to_items A ∧
    (calculate_user_debts ts A).owed_by_total =
      (calculate_user_debts ts B).owed_to_total := by
  have h0B : rawShape B ([] : List (ℕ × ℤ)) 0 := Or.inl ⟨rfl, rfl⟩
  have h0A : rawShape A ([] : List (ℕ × ℤ)) 0 := Or.inl ⟨rfl, rfl⟩
  have hA := fold_raws_shape A B hAB ts [] [] 0 0 hts h0B h0B
  have hB := fold_raws_shape B A (Ne.symm hAB) ts [] [] 0 0
    (fun t ht => (hts t ht).symm) h0A h0A
  simp only [zero_add] at hA hB
  simp only [calculate_user_debts]
  rw [net_shaped_to_items B _ _ _ _ hA.1 hA.2, net_shaped_by_items B _ _ _ _ hA.1 hA.2,
    net_shaped_to_total B _ _ _ _ hA.1 hA.2, net_shaped_by_total B _ _ _ _ hA.1 hA.2,
    net_shaped_to_items A _ _ _ _ hB.1 hB.2, net_shaped_by_items A _ _ _ _ hB.1 hB.2,
    net_shaped_to_total A _ _ _ _ hB.1 hB.2, net_shaped_by_total A _ _ _ _ hB.1 hB.2]
  refine ⟨?_, ?_, ?_, ?_⟩ <;> split_ifs <;> simp [lookupD]

/-- C8 (witness): concrete run of `calculate_user_debts_symm` on two
transfers between users 1 and 2. -/
theorem calculate_user_debts_symm_witness :
    (1 : ℕ) ≠ 2 ∧
    lookupD (calculate_user_debts [(1, 2, 500), (2, 1, 200)] 1).owed_to_items 2 =
      lookupD (calculate_user_debts [(1, 2, 500), (2, 1, 200)] 2).owed_by_items 1 ∧
    (calculate_user_debts [(1, 2, 500), (2, 1, 200)] 1).owed_to_total =
      (calculate_user_debts [(1, 2, 500), (2, 1, 200)] 2).owed_by_total := by
  have h := calculate_user_debts_symm [(1, 2, 500), (2, 1, 200)] 1 2
    (by decide) (by decide)
  exact ⟨by decide, h.1, h.2.1⟩

/-! ## Money normalizer rounding mode (C5)

`quantize_currency` uses Python `decimal`'s `ROUND_UP`, which rounds away
from zero whenever any discarded digit is non-zero — not only on ties. -/

/-- C5 (counterexample): `10.004` is not a tie, so under the claimed
round-half-up semantics it would quantize to `10.00`; `quantize_currency`
(`ROUND_UP`) yields `10.01` instead. -/
theorem quantize_currency_not_half_up_counterexample :
    quantize_currency (10004 / 1000) = 1001 / 100 ∧
    round_half_up_2dp (10004 / 1000) = 1000 / 100 ∧
    quantize_currency (10004 / 1000) ≠ round_half_up_2dp (10004 / 1000) := by
  have h1 : quantize_currency (10004 / 1000) = 1001 / 100 := by
    rw [quantize_currency, if_pos (by norm_num)]
    norm_num
    rw [show (⌈(5002 / 5 : ℚ)⌉ : ℤ) = 1001 by
      rw [Int.ceil_eq_iff]
      constructor <;> norm_num]
    norm_num
  have h2 : round_half_up_2dp (10004 / 1000) = 1000 / 100 := by
    rw [round_half_up_2dp, if_pos (by norm_num)]
    rw [show (10004 / 1000 * 100 + 1 / 2 : ℚ) = 10009 / 10 by norm_num]
    rw [show (⌊(10009 / 10 : ℚ)⌋ : ℤ) = 1000 by
      rw [Int.floor_eq_iff]
      constructor <;> norm_num]
    norm_num
  refine ⟨h1, h2, ?_⟩
  rw [h1, h2]
  norm_num

/-- C5 (amended): `quantize_currency` rounds to exactly two decimal places
using round-up (away-from-zero) semantics: for every nonnegative `v` the
result is the smallest 2-decimal-place value `≥ v` (so `v ≤ q < v + 0.01`
and `q·100` is an integer), negative inputs round symmetrically away from
zero, and in particular `10.001` quantizes to `10.01`, not `10.00`. -/
theorem quantize_currency_round_up_spec :
    (∀ v : ℚ, 0 ≤ v →
      v ≤ quantize_currency v ∧ quantize_currency v < v + 1 / 100 ∧
        (quantize_currency v * 100).den = 1) ∧
    (∀ v : ℚ, quantize_currency (-v) = -(quantize_currency v)) ∧
    quantize_currency (10001 / 1000) = 1001 / 100 := by
  refine ⟨?_, ?_, ?_⟩
  · intro v hv
    rw [quantize_currency, if_pos hv]
    refine ⟨?_, ?_, ?_⟩
    · rw [le_div_iff₀ (by norm_num : (0 : ℚ) < 100)]
      exact Int.le_ceil (v * 100)
    · have h := Int.ceil_lt_add_one (v * 100)
      rw [div_lt_iff₀ (by norm_num : (0 : ℚ) < 100)]
      linarith
    · rw [div_mul_cancel₀ _ (by norm_num : (100 : ℚ) ≠ 0)]
      exact Rat.den_intCast _
  · intro v
    rcases lt_trichotomy v 0 with h | h | h
    · rw [quantize_currency, quantize_currency, if_pos (by linarith : (0 : ℚ) ≤ -v),
        if_neg (not_le.mpr h)]
      rw [show (-v * 100 : ℚ) = -(v * 100) by ring, Int.ceil_neg]
      push_cast
      ring
    · subst h
      norm_num [quantize_currency]
    · rw [quantize_currency, quantize_currency, if_neg (by simp; linarith),
        if_pos (le_of_lt h)]
      rw [show (-v * 100 : ℚ) = -(v * 100) by ring, Int.floor_neg]
      push_cast
      ring
  · rw [quantize_currency, if_pos (by norm_num)]
    norm_num
    rw [show (⌈(10001 / 10 : ℚ)⌉ : ℤ) = 1001 by
      rw [Int.ceil_eq_iff]
      constructor <;> norm_num]
    norm_num

/-- C5 (witness): concrete run of `quantize_currency_round_up_spec` at
`v = 0.015`, which rounds up to `0.02`. -/
theorem quantize_currency_round_up_spec_witness :
    (0 : ℚ) ≤ 3 / 200 ∧ (3 / 200 : ℚ) ≤ quantize_currency (3 / 200) ∧
      quantize_currency (3 / 200) < 3 / 200 + 1 / 100 :=
  ⟨by norm_num, (quantize_currency_round_up_spec.1 (3 / 200) (by norm_num)).1,
    (quantize_currency_round_up_spec.1 (3 / 200) (by norm_num)).2.1⟩

/-- C6 (counterexample): updating the amount of an expense does not
regenerate its splits, so the claimed invariant `sum(shares) =
total_amount` fails after an amount edit: a 10.00 expense of a one-member
group updated to 20.00 keeps its single 10.00 share. -/
theorem expense_update_breaks_split_sum_counterexample :
    ((update_expense (create_expense 1000 [1]) (some 2000)).splits.map Prod.snd).sum = 1000 ∧
    (update_expense (create_expense 1000 [1]) (some 2000)).value = 2000 ∧
    ((update_expense (create_expense 1000 [1]) (some 2000)).splits.map Prod.snd).sum ≠
      (update_expense (create_expense 1000 [1]) (some 2000)).value := by
  refine ⟨by decide, by decide, by decide⟩

/-- C6 (amended): the shares of an expense sum exactly to the expense's
creation-time (quantized) total; amount updates leave the splits frozen, so
after an update the shares still sum to the original total rather than the
new amount. -/
theorem expense_splits_frozen_after_update (v vnew : ℤ) (members : List ℕ)
    (hne : members ≠ []) :
    (update_expense (create_expense v members) (some vnew)).splits =
      (create_expense v members).splits ∧
    ((update_expense (create_expense v members) (some vnew)).splits.map Prod.snd).sum = v := by
  exact ⟨rfl, allocate_splits_sum v members hne⟩

/-- C6 (witness): concrete run of `expense_splits_frozen_after_update` for
a 10.00 expense over one member updated to 20.00. -/
theorem expense_splits_frozen_after_update_witness :
    ([1] : List ℕ) ≠ [] ∧
    ((update_expense (create_expense 1000 [1]) (some 2000)).splits.map Prod.snd).sum = 1000 :=
  ⟨by decide, (expense_splits_frozen_after_update 1000 2000 [1] (by decide)).2⟩

/-- C9: joining a group by invite code when the user is already a member
leaves the state unchanged — no duplicate membership row, no new join
request, and every balance in the group stays the same — and the service
reports the `ValueError`. -/
theorem join_by_code_already_member (st : AppState) (user code group_id : ℕ)
    (hgr : get_group_by_invite_code st code = some group_id)
    (hmem : is_member st group_id user = true) :
    (create_join_request_by_invite_code st user code).2 = st ∧
    (create_join_request_by_invite_code st user code).2.members = st.members ∧
    (create_join_request_by_invite_code st user code).2.join_requests = st.join_requests ∧
    (∀ u, aggregate_balances (create_join_request_by_invite_code st user code).2.splits
        (create_join_request_by_invite_code st user code).2.settlements u =
      aggregate_balances st.splits st.settlements u) ∧
    (create_join_request_by_invite_code st user code).1 =
      Except.error "User already a member" := by
  have h : create_join_request_by_invite_code st user code =
      (.error "User already a member", st) := by
    rw [create_join_request_by_invite_code, hgr]
    simp only [hmem, if_true]
  rw [h]
  exact ⟨rfl, rfl, rfl, fun u => rfl, rfl⟩

/-- C9 (witness): concrete run of `join_by_code_already_member` on a state
where user 7 is already a member of group 1 with invite code 42. -/
theorem join_by_code_already_member_witness :
    get_group_by_invite_code ⟨[(1, 42)], [(1, 7)], [], [(7, 8, 100)], []⟩ 42 = some 1 ∧
    is_member ⟨[(1, 42)], [(1, 7)], [], [(7, 8, 100)], []⟩ 1 7 = true ∧
    (create_join_request_by_invite_code ⟨[(1, 42)], [(1, 7)], [], [(7, 8, 100)], []⟩ 7 42).2 =
      ⟨[(1, 42)], [(1, 7)], [], [(7, 8, 100)], []⟩ := by
  refine ⟨by decide, by decide, ?_⟩
  exact (join_by_code_already_member ⟨[(1, 42)], [(1, 7)], [], [(7, 8, 100)], []⟩ 7 42 1
    (by decide) (by decide)).1

end FairShare
